import Mathlib

/-!
Shallow embedding of the clite editor core (src/clite.cpp) and proofs about
it.  Rows are lists of characters; the editor state carries the cursor, the
row list and the dirty counter.  C strings become `List Char`, C `int`
indices become `Nat` where the source guarantees non-negativity and `Int`
where a claim is about negative indices.
-/

namespace Clite

/-- CLITE_TAB_STOP from src/clite.cpp. -/
def CLITE_TAB_STOP : Nat := 8

/-- CLITE_QUIT_TIMES from src/clite.cpp. -/
def CLITE_QUIT_TIMES : Nat := 3

/-! ## Syntax highlighting data (enum editorHighlight, struct editorSyntax) -/

/-- The highlight classification values (enum editorHighlight). -/
inductive EHl where
  | HL_NORMAL
  | HL_COMMENT
  | HL_STRING
  | HL_NUMBER
  | HL_MATCH
deriving DecidableEq

/-- struct editorSyntax: the single-line comment token and the two feature
flags (HL_HIGHLIGHT_NUMBERS, HL_HIGHLIGHT_STRINGS) from the `flags` field.
The `filematch` patterns only matter for profile selection, not modelled. -/
structure EditorSyntaxInfo where
  scs : List Char
  highlightNumbers : Bool
  highlightStrings : Bool
deriving DecidableEq

/-- HLDB[0]: the C profile, comment token "//", numbers and strings on. -/
def cSyntaxInfo : EditorSyntaxInfo :=
  { scs := "//".toList, highlightNumbers := true, highlightStrings := true }

/-- C `isspace` on the ASCII characters the editor can see. -/
def isspaceC (c : Char) : Bool :=
  c = ' ' || c = '\t' || c = '\n' || c = Char.ofNat 11 || c = Char.ofNat 12 || c = '\r'

/-- is_separator from src/clite.cpp: whitespace, NUL, or one of the fixed
punctuation characters. -/
def is_separator (c : Char) : Bool :=
  isspaceC c || c = Char.ofNat 0 || (",.()+-/*=~%<>[];".toList).contains c

/-! ## Tab expansion (editorUpdateRow) and coordinate maps -/

/-- The spaces one tab emits when the render buffer currently holds `idx`
characters: one space, then spaces while `idx % CLITE_TAB_STOP != 0`
(closed form of the while loop in editorUpdateRow). -/
def tabFill (idx : Nat) : List Char :=
  List.replicate (CLITE_TAB_STOP - idx % CLITE_TAB_STOP) ' '

/-- The render-filling loop of editorUpdateRow: `idx` is the number of
characters already emitted into the render buffer. -/
def renderCharsAux : List Char → Nat → List Char
  | [], _ => []
  | c :: rest, idx =>
    if c = '\t' then
      tabFill idx ++ renderCharsAux rest (idx + (CLITE_TAB_STOP - idx % CLITE_TAB_STOP))
    else
      c :: renderCharsAux rest (idx + 1)

/-- The render buffer editorUpdateRow derives from a row's raw characters. -/
def renderChars (chars : List Char) : List Char :=
  renderCharsAux chars 0

/-- The loop body of editorRowCxToRx: fold the tab rule over a prefix of the
row, accumulating the render column `rx`. -/
def cxToRxAux : List Char → Nat → Nat
  | [], rx => rx
  | c :: rest, rx =>
    cxToRxAux rest (if c = '\t' then rx + (CLITE_TAB_STOP - rx % CLITE_TAB_STOP) else rx + 1)

/-- editorRowCxToRx: render column of file column `cx` (walks chars [0, cx)). -/
def editorRowCxToRx (chars : List Char) (cx : Nat) : Nat :=
  cxToRxAux (chars.take cx) 0

/-- The loop of editorRowRxToCx: walk the row accumulating `cur_rx`; return
the first file column whose cumulative render column exceeds `rx`; if never
exceeded, return the row length. -/
def rxToCxAux : List Char → Nat → Nat → Nat → Nat
  | [], _, _, cx => cx
  | c :: rest, cur_rx, rx, cx =>
    let cur_rx2 := if c = '\t' then cur_rx + (CLITE_TAB_STOP - cur_rx % CLITE_TAB_STOP)
                   else cur_rx + 1
    if rx < cur_rx2 then cx else rxToCxAux rest cur_rx2 rx (cx + 1)

/-- editorRowRxToCx: file column for render column `rx`. -/
def editorRowRxToCx (chars : List Char) (rx : Nat) : Nat :=
  rxToCxAux chars 0 rx 0

/-! ## editorUpdateSyntax

The while loop of editorUpdateSyntax, carrying `prev_sep`, `in_string` and
the previously written highlight value (`prev_hl`, read back from `hl[i-1]`
by the source; every branch writes `hl[i]` just before advancing, so
threading the last written value is equivalent).  The loop index `i`
advances by at least one per iteration and the loop runs while
`i < rsize`, so `fuel = rsize` iterations always suffice; `fuel` only
makes the recursion structural and the zero-fuel branch is unreachable
from `editorUpdateSyntaxHl`. -/
def hlAux (scs : List Char) (numF strF : Bool) :
    Nat → List Char → Bool → Option Char → EHl → List EHl
  | 0, _, _, _, _ => []
  | _ + 1, [], _, _, _ => []
  | fuel + 1, c :: rest, prevSep, inString, prevHl =>
    if scs ≠ [] ∧ inString = none ∧ scs.isPrefixOf (c :: rest) then
      -- memset(&hl[i], HL_COMMENT, rsize - i); break
      List.replicate (rest.length + 1) EHl.HL_COMMENT
    else if hs : strF ∧ inString.isSome then
      if c = '\\' ∧ rest ≠ [] then
        -- hl[i] = hl[i+1] = HL_STRING; i += 2
        EHl.HL_STRING :: EHl.HL_STRING ::
          hlAux scs numF strF fuel (rest.drop 1) prevSep inString EHl.HL_STRING
      else
        -- hl[i] = HL_STRING; close the string on its quote; prev_sep = 1
        EHl.HL_STRING ::
          hlAux scs numF strF fuel rest true
            (if c = inString.get hs.2 then none else inString) EHl.HL_STRING
    else if strF ∧ inString = none ∧ (c = Char.ofNat 34 ∨ c = Char.ofNat 39) then
      -- opening quote: in_string = c; hl[i] = HL_STRING
      EHl.HL_STRING :: hlAux scs numF strF fuel rest prevSep (some c) EHl.HL_STRING
    else if numF ∧ ((c.isDigit ∧ (prevSep ∨ prevHl = EHl.HL_NUMBER)) ∨
        (c = '.' ∧ prevHl = EHl.HL_NUMBER)) then
      -- hl[i] = HL_NUMBER; prev_sep = 0
      EHl.HL_NUMBER :: hlAux scs numF strF fuel rest false inString EHl.HL_NUMBER
    else
      -- hl[i] stays HL_NORMAL (memset default); prev_sep = is_separator(c)
      EHl.HL_NORMAL :: hlAux scs numF strF fuel rest (is_separator c) inString EHl.HL_NORMAL

/-- editorUpdateSyntax: with no active profile the array stays all
HL_NORMAL; otherwise the scanning loop starts at the beginning of the
render text with `prev_sep = 1` and `in_string = 0`. -/
def editorUpdateSyntaxHl (syn : Option EditorSyntaxInfo) (render : List Char) : List EHl :=
  match syn with
  | none => List.replicate render.length EHl.HL_NORMAL
  | some s =>
    hlAux s.scs s.highlightNumbers s.highlightStrings
      render.length render true none EHl.HL_NORMAL

/-! ## Rows and the editor state -/

/-- struct erow: `size`/`rsize` are the lengths of the lists. -/
structure Erow where
  chars : List Char
  render : List Char
  hl : List EHl
deriving DecidableEq

/-- editorUpdateRow: rebuild `render` from `chars`, then rebuild `hl` from
`render` (the trailing editorUpdateSyntax call). -/
def editorUpdateRow (syn : Option EditorSyntaxInfo) (chars : List Char) : Erow :=
  let render := renderChars chars
  { chars := chars, render := render, hl := editorUpdateSyntaxHl syn render }

/-- The slice of struct editorConfig the modelled operations touch:
cursor, row array and dirty counter (`numrows` is `rows.length`). -/
structure EditorState where
  cx : Nat
  cy : Nat
  rows : List Erow
  dirty : Nat
deriving DecidableEq

/-! ## Row store operations -/

/-- editorInsertRow: guarded on `at ≤ numrows` (the `at < 0` guard is
vacuous for `Nat`), shifts the tail, derives render/hl, bumps dirty. -/
def editorInsertRow (syn : Option EditorSyntaxInfo) (st : EditorState)
    (idx : Nat) (s : List Char) : EditorState :=
  if idx > st.rows.length then st
  else { st with
    rows := st.rows.take idx ++ editorUpdateRow syn s :: st.rows.drop idx,
    dirty := st.dirty + 1 }

/-- editorDelRow: guarded on `at < numrows`, shifts the tail down. -/
def editorDelRow (st : EditorState) (idx : Nat) : EditorState :=
  if idx ≥ st.rows.length then st
  else { st with
    rows := st.rows.take idx ++ st.rows.drop (idx + 1),
    dirty := st.dirty + 1 }

/-- editorRowInsertChar: clamps `at` to the row length (the `at < 0` case
is vacuous for `Nat`), inserts, re-derives render/hl, bumps dirty. -/
def editorRowInsertChar (syn : Option EditorSyntaxInfo) (row : Erow)
    (dirty : Nat) (idx : Nat) (c : Char) : Erow × Nat :=
  let idx2 := if idx > row.chars.length then row.chars.length else idx
  (editorUpdateRow syn (row.chars.take idx2 ++ c :: row.chars.drop idx2), dirty + 1)

/-- editorRowDelChar: no-op unless `0 ≤ at < size` (`at` kept as `Int` to
model the C `int` argument); otherwise removes the character, re-derives
render/hl and bumps dirty. -/
def editorRowDelChar (syn : Option EditorSyntaxInfo) (row : Erow)
    (dirty : Nat) (idx : Int) : Erow × Nat :=
  if idx < 0 ∨ idx ≥ (row.chars.length : Int) then (row, dirty)
  else
    (editorUpdateRow syn (row.chars.take idx.toNat ++ row.chars.drop (idx.toNat + 1)),
      dirty + 1)

/-- editorRowAppendString: concatenate, re-derive render/hl, bump dirty. -/
def editorRowAppendString (syn : Option EditorSyntaxInfo) (row : Erow)
    (dirty : Nat) (s : List Char) : Erow × Nat :=
  (editorUpdateRow syn (row.chars ++ s), dirty + 1)

/-! ## Editor operations -/

/-- editorInsertChar: at the past-last-row position append an empty row
first, then insert at the cursor and advance `cx`.  (A cursor row beyond
`numrows` would index out of bounds in the source; the `none` branch keeps
the model total and is unreachable for legal cursor positions.) -/
def editorInsertChar (syn : Option EditorSyntaxInfo) (st : EditorState)
    (c : Char) : EditorState :=
  let st1 := if st.cy = st.rows.length
             then editorInsertRow syn st st.rows.length [] else st
  match st1.rows.get? st1.cy with
  | none => st1
  | some row =>
    let rd := editorRowInsertChar syn row st1.dirty st1.cx c
    { st1 with
      rows := st1.rows.take st1.cy ++ rd.1 :: st1.rows.drop (st1.cy + 1),
      dirty := rd.2,
      cx := st1.cx + 1 }

/-- editorInsertNewline: at column 0 insert an empty row above; otherwise
insert the suffix `[cx, size)` as a new row below and truncate the current
row to `[0, cx)` (re-deriving render/hl); then move to column 0 of the next
row.  The `none` branch is unreachable for legal cursor positions. -/
def editorInsertNewline (syn : Option EditorSyntaxInfo) (st : EditorState) : EditorState :=
  if st.cx = 0 then
    let st1 := editorInsertRow syn st st.cy []
    { st1 with cy := st.cy + 1, cx := 0 }
  else
    match st.rows.get? st.cy with
    | none => st
    | some row =>
      let st1 := editorInsertRow syn st (st.cy + 1) (row.chars.drop st.cx)
      let row2 := editorUpdateRow syn (row.chars.take st.cx)
      { st1 with
        rows := st1.rows.take st.cy ++ row2 :: st1.rows.drop (st.cy + 1),
        cy := st.cy + 1, cx := 0 }

/-- editorDelChar: nothing past the last row or at the origin; with
`cx > 0` delete the character left of the cursor; at column 0 append the
row onto the previous one (cursor jumps to the previous row's old length),
then delete the row and move up.  The `none` branches are unreachable for
legal cursor positions. -/
def editorDelChar (syn : Option EditorSyntaxInfo) (st : EditorState) : EditorState :=
  if st.cy = st.rows.length then st
  else if st.cx = 0 ∧ st.cy = 0 then st
  else
    match st.rows.get? st.cy with
    | none => st
    | some row =>
      if st.cx > 0 then
        let rd := editorRowDelChar syn row st.dirty ((st.cx : Int) - 1)
        { st with
          rows := st.rows.take st.cy ++ rd.1 :: st.rows.drop (st.cy + 1),
          dirty := rd.2,
          cx := st.cx - 1 }
      else
        match st.rows.get? (st.cy - 1) with
        | none => st
        | some prev =>
          let rd := editorRowAppendString syn prev st.dirty row.chars
          let st1 := { st with
            rows := st.rows.take (st.cy - 1) ++ rd.1 :: st.rows.drop st.cy,
            dirty := rd.2,
            cx := prev.chars.length }
          let st2 := editorDelRow st1 st.cy
          { st2 with cy := st.cy - 1 }

/-- editorOpen, restricted to what reaches the row store: insert each
loaded line (line endings already stripped) at the end, then clear the
dirty counter. -/
def editorOpen (syn : Option EditorSyntaxInfo) (lines : List (List Char)) : EditorState :=
  let st := lines.foldl (fun st line => editorInsertRow syn st st.rows.length line)
    { cx := 0, cy := 0, rows := [], dirty := 0 }
  { st with dirty := 0 }

/-! ## Save serialization (editorRowsToString / editorSave) -/

/-- The `totlen` loop of editorRowsToString: each row contributes its size
plus one for the newline.  This is the byte count `editorSave` reports. -/
def editorRowsToStringLen (rows : List Erow) : Nat :=
  rows.foldl (fun acc r => acc + (r.chars.length + 1)) 0

/-- The buffer-filling loop of editorRowsToString: for each row in order,
its raw characters followed by one newline. -/
def editorRowsToString (rows : List Erow) : List Char :=
  rows.foldr (fun r acc => r.chars ++ '\n' :: acc) []

/-! ## Incremental search (editorFindCallback) -/

/-- strstr position: index of the first occurrence of `need` in `hay`. -/
def strstrPos : List Char → List Char → Option Nat
  | hay, need =>
    if need.isPrefixOf hay then some 0
    else
      match hay with
      | [] => none
      | _ :: t => (strstrPos t need).map (· + 1)

/-- The per-iteration advance of editorFindCallback's loop:
`current += direction`, then wrap `-1 ↦ numrows - 1` and `numrows ↦ 0`. -/
def findWrap (numrows current direction : Int) : Int :=
  if current + direction = -1 then numrows - 1
  else if current + direction = numrows then 0
  else current + direction

/-- The scanning loop of editorFindCallback.  The source's `for` loop runs
at most `numrows` iterations (the first argument); each iteration advances
`current` by `direction` with wraparound (findWrap), and stops at the
first row whose render contains the query, producing the new cursor
`(cy, cx)` with `cx` converted through editorRowRxToCx.  The `none`
row-lookup branch is unreachable while `current` stays in range. -/
def editorFindLoop (rows : List Erow) (query : List Char) :
    Nat → Int → Int → Option (Nat × Nat)
  | 0, _, _ => none
  | n + 1, current, direction =>
    match rows.get? (findWrap rows.length current direction).toNat with
    | none => none
    | some row =>
      match strstrPos row.render query with
      | some pos =>
        some ((findWrap rows.length current direction).toNat,
          editorRowRxToCx row.chars pos)
      | none => editorFindLoop rows query n (findWrap rows.length current direction) direction

/-- The search step of editorFindCallback after key handling: force the
direction forward when there is no previous match, then run the scan
starting from `last_match` for one full pass. -/
def editorFindScan (rows : List Erow) (query : List Char)
    (last_match direction : Int) : Option (Nat × Nat) :=
  let dir := if last_match = -1 then 1 else direction
  editorFindLoop rows query rows.length last_match dir

/-- Modelled from the claim's wording, to be compared with the code-derived
scan: the candidate row visited at (1-based) step `k` when advancing from
`last_match` by `direction` one row at a time with wraparound, i.e. the
index modulo the row count. -/
def findCandidate (numrows : Nat) (last_match direction : Int) (k : Nat) : Nat :=
  ((last_match + direction * k) % (numrows : Int)).toNat

/-- Modelled from the claim's wording: the sequence of at most `numrows`
candidate rows one scan examines (one full pass). -/
def findVisited (numrows : Nat) (last_match direction : Int) : List Nat :=
  (List.range numrows).map (fun i => findCandidate numrows last_match direction (i + 1))

/-- Modelled from the claim's wording: the scan result is the first visited
row whose render contains the query, with the cursor column obtained from
the match's render column via editorRowRxToCx. -/
def findSpec (rows : List Erow) (query : List Char)
    (last_match direction : Int) : Option (Nat × Nat) :=
  let dir := if last_match = -1 then 1 else direction
  match (findVisited rows.length last_match dir).find? (fun r =>
      ((rows.get? r).map (fun row => (strstrPos row.render query).isSome)).getD false) with
  | none => none
  | some r =>
    (rows.get? r).bind (fun row =>
      (strstrPos row.render query).map (fun pos => (r, editorRowRxToCx row.chars pos)))

/-- Spec-side generalization of findSpec used for the loop induction: the
scan from `cur` examining `n` candidate rows. -/
def findSpecFrom (rows : List Erow) (query : List Char) (cur dir : Int) (n : Nat) :
    Option (Nat × Nat) :=
  match ((List.range n).map (fun i => findCandidate rows.length cur dir (i + 1))).find?
      (fun r => ((rows.get? r).map
        (fun row => (strstrPos row.render query).isSome)).getD false) with
  | none => none
  | some r =>
    (rows.get? r).bind (fun row =>
      (strstrPos row.render query).map (fun pos => (r, editorRowRxToCx row.chars pos)))

/-! ## Quit confirmation (editorProcessKeypress) -/

/-- What one dispatch of editorProcessKeypress does to the process and the
static `quit_times` counter: `exited` models the `exit(0)` call,
`continued` carries the counter value at the end of the dispatch and
whether the unsaved-changes warning was issued. -/
inductive QuitStep where
  | exited
  | continued (quit_times : Nat) (warned : Bool)
deriving DecidableEq

/-- The quit-confirmation portion of editorProcessKeypress: on Ctrl-Q with
a dirty buffer and a positive counter, warn and decrement (the early
`return` skips the trailing reset); on Ctrl-Q otherwise, exit; on any
other key the dispatch falls through to `quit_times = CLITE_QUIT_TIMES`. -/
def processQuitKey (dirty quit_times : Nat) (isQuit : Bool) : QuitStep :=
  if isQuit then
    if dirty ≠ 0 ∧ quit_times > 0 then .continued (quit_times - 1) true
    else .exited
  else .continued CLITE_QUIT_TIMES false

/-- Run a sequence of keypresses (`true` = Ctrl-Q, `false` = any other
key) through the quit logic; result is whether the process terminated. -/
def runQuitPresses (dirty : Nat) : Nat → List Bool → Bool
  | _, [] => false
  | qt, k :: ks =>
    match processQuitKey dirty qt k with
    | .exited => true
    | .continued qt2 _ => runQuitPresses dirty qt2 ks

/-! ## Helper lemmas -/

theorem editorUpdateRow_chars (syn : Option EditorSyntaxInfo) (chars : List Char) :
    (editorUpdateRow syn chars).chars = chars := rfl

/-- The `idx` argument of the render loop tracks the number of characters
emitted: final column = initial column + emitted length, and the final
column is what editorRowCxToRx computes for the full row. -/
theorem renderCharsAux_length (l : List Char) :
    ∀ idx, idx + (renderCharsAux l idx).length = cxToRxAux l idx := by
  induction l with
  | nil => intro idx; simp [renderCharsAux, cxToRxAux]
  | cons c rest ih =>
    intro idx
    by_cases h : c = '\t'
    · simp only [renderCharsAux, cxToRxAux, h, if_true, ite_true, List.length_append,
        tabFill, List.length_replicate]
      rw [← ih (idx + (CLITE_TAB_STOP - idx % CLITE_TAB_STOP))]
      omega
    · simp only [renderCharsAux, cxToRxAux, h, if_false, ite_false, List.length_cons]
      rw [← ih (idx + 1)]
      omega

/-- On a tab-free list the cx→rx walk advances by exactly one per char. -/
theorem cxToRxAux_no_tab (l : List Char) :
    ∀ rx, (∀ c ∈ l, c ≠ '\t') → cxToRxAux l rx = rx + l.length := by
  induction l with
  | nil => intro rx _; simp [cxToRxAux]
  | cons c rest ih =>
    intro rx h
    have hc : c ≠ '\t' := h c (List.mem_cons_self c rest)
    simp only [cxToRxAux, if_neg hc, List.length_cons]
    rw [ih (rx + 1) (fun x hx => h x (List.mem_cons_of_mem c hx))]
    omega

/-- On a tab-free list the rx→cx walk returns `cx + min d len` when the
target is `cur + d`. -/
theorem rxToCxAux_no_tab (l : List Char) :
    ∀ cur d cx, (∀ c ∈ l, c ≠ '\t') →
      rxToCxAux l cur (cur + d) cx = cx + min d l.length := by
  induction l with
  | nil => intro cur d cx _; simp [rxToCxAux]
  | cons c rest ih =>
    intro cur d cx h
    have hc : c ≠ '\t' := h c (List.mem_cons_self c rest)
    simp only [rxToCxAux, if_neg hc]
    by_cases hd : d = 0
    · subst hd; simp
    · rw [if_neg (by omega)]
      have : cur + d = (cur + 1) + (d - 1) := by omega
      rw [this, ih (cur + 1) (d - 1) (cx + 1) (fun x hx => h x (List.mem_cons_of_mem c hx))]
      simp only [List.length_cons]
      omega

/-- The highlighting loop classifies exactly one entry per character as
long as the fuel covers the text (each iteration consumes at least one
character, so `fuel = rsize` always does). -/
theorem hlAux_length (scs : List Char) (numF strF : Bool) :
    ∀ fuel l prevSep inString prevHl, l.length ≤ fuel →
      (hlAux scs numF strF fuel l prevSep inString prevHl).length = l.length := by
  intro fuel
  induction fuel with
  | zero =>
    intro l _ _ _ h
    have hl0 : l = [] := List.eq_nil_of_length_eq_zero (by omega)
    subst hl0
    simp [hlAux]
  | succ n ih =>
    intro l prevSep inString prevHl h
    cases l with
    | nil => simp [hlAux]
    | cons c rest =>
      have hr : rest.length ≤ n := by
        simp only [List.length_cons] at h; omega
      rw [hlAux]
      split
      · simp
      split
      · split
        · rename_i hesc
          simp only [List.length_cons]
          rw [ih (rest.drop 1) _ _ _ (by simp only [List.length_drop]; omega)]
          have : rest ≠ [] := hesc.2
          simp only [List.length_drop]
          have : 0 < rest.length := List.length_pos.2 this
          omega
        · simp only [List.length_cons]
          rw [ih rest _ _ _ hr]
      split
      · simp only [List.length_cons]
        rw [ih rest _ _ _ hr]
      split
      · simp only [List.length_cons]
        rw [ih rest _ _ _ hr]
      · simp only [List.length_cons]
        rw [ih rest _ _ _ hr]

/-- editorUpdateSyntax always leaves `len(hl) = len(render)`. -/
theorem editorUpdateSyntaxHl_length (syn : Option EditorSyntaxInfo) (render : List Char) :
    (editorUpdateSyntaxHl syn render).length = render.length := by
  cases syn with
  | none => simp [editorUpdateSyntaxHl]
  | some s =>
    exact hlAux_length s.scs s.highlightNumbers s.highlightStrings
      render.length render true none EHl.HL_NORMAL (Nat.le_refl _)

/-- A row is well-formed when its render and hl buffers are exactly the
ones editorUpdateRow would regenerate from its raw characters. -/
def rowWF (syn : Option EditorSyntaxInfo) (r : Erow) : Prop :=
  r.render = renderChars r.chars ∧ r.hl = editorUpdateSyntaxHl syn r.render

instance (syn : Option EditorSyntaxInfo) (r : Erow) : Decidable (rowWF syn r) := by
  unfold rowWF; infer_instance

/-- Every row of the document is well-formed. -/
def stateWF (syn : Option EditorSyntaxInfo) (st : EditorState) : Prop :=
  ∀ r ∈ st.rows, rowWF syn r

instance (syn : Option EditorSyntaxInfo) (st : EditorState) : Decidable (stateWF syn st) := by
  unfold stateWF; infer_instance

theorem rowWF_editorUpdateRow (syn : Option EditorSyntaxInfo) (chars : List Char) :
    rowWF syn (editorUpdateRow syn chars) := ⟨rfl, rfl⟩

/-- Splicing a regenerated row into a well-formed row list (the shape of
every row-array mutation in the source) keeps every row well-formed. -/
theorem rowWF_surgery (syn : Option EditorSyntaxInfo) (rows : List Erow)
    (h : ∀ r ∈ rows, rowWF syn r) (i j : Nat) (x : Erow) (hx : rowWF syn x) :
    ∀ r ∈ rows.take i ++ x :: rows.drop j, rowWF syn r := by
  intro r hr
  rcases List.mem_append.1 hr with h1 | h2
  · exact h r (List.mem_of_mem_take h1)
  · rcases List.mem_cons.1 h2 with rfl | h3
    · exact hx
    · exact h r (List.mem_of_mem_drop h3)

/-- Removing a row keeps every remaining row well-formed. -/
theorem rowWF_surgery_del (syn : Option EditorSyntaxInfo) (rows : List Erow)
    (h : ∀ r ∈ rows, rowWF syn r) (i j : Nat) :
    ∀ r ∈ rows.take i ++ rows.drop j, rowWF syn r := by
  intro r hr
  rcases List.mem_append.1 hr with h1 | h2
  · exact h r (List.mem_of_mem_take h1)
  · exact h r (List.mem_of_mem_drop h2)

theorem stateWF_editorInsertRow (syn : Option EditorSyntaxInfo) (st : EditorState)
    (idx : Nat) (s : List Char) (h : stateWF syn st) :
    stateWF syn (editorInsertRow syn st idx s) := by
  rw [editorInsertRow]
  split
  · exact h
  · exact rowWF_surgery syn st.rows h idx idx _ (rowWF_editorUpdateRow syn s)

theorem stateWF_editorDelRow (syn : Option EditorSyntaxInfo) (st : EditorState)
    (idx : Nat) (h : stateWF syn st) : stateWF syn (editorDelRow st idx) := by
  rw [editorDelRow]
  split
  · exact h
  · exact rowWF_surgery_del syn st.rows h idx (idx + 1)

theorem stateWF_editorOpen_go (syn : Option EditorSyntaxInfo) :
    ∀ (lines : List (List Char)) (st : EditorState), stateWF syn st →
      stateWF syn (lines.foldl
        (fun st line => editorInsertRow syn st st.rows.length line) st) := by
  intro lines
  induction lines with
  | nil => intro st h; exact h
  | cons line rest ih =>
    intro st h
    exact ih _ (stateWF_editorInsertRow syn st st.rows.length line h)

/-- editorInsertNewline at column 0: a fresh empty row appears above the
cursor row. -/
theorem editorInsertNewline_zero (syn : Option EditorSyntaxInfo)
    (cy : Nat) (R : List Erow) (d : Nat) (hcy : cy < R.length) :
    editorInsertNewline syn ⟨0, cy, R, d⟩ =
      ⟨0, cy + 1, R.take cy ++ editorUpdateRow syn [] :: R.drop cy, d + 1⟩ := by
  simp only [editorInsertNewline, editorInsertRow]
  rw [if_neg (show ¬(cy > R.length) by omega)]
  simp

/-- editorInsertNewline at a positive column: the cursor row is truncated
to its prefix and its suffix becomes the next row. -/
theorem editorInsertNewline_pos (syn : Option EditorSyntaxInfo)
    (cx cy : Nat) (R : List Erow) (d : Nat) (row : Erow)
    (hrow : R.get? cy = some row) (hcy : cy < R.length) (hcx : cx ≠ 0) :
    editorInsertNewline syn ⟨cx, cy, R, d⟩ =
      ⟨0, cy + 1,
        R.take cy ++ editorUpdateRow syn (row.chars.take cx) ::
          editorUpdateRow syn (row.chars.drop cx) :: R.drop (cy + 1),
        d + 1⟩ := by
  have h1 : (R.take (cy + 1)).length = cy + 1 := by simp; omega
  simp only [editorInsertNewline, editorInsertRow]
  rw [if_neg hcx]
  simp only [hrow]
  rw [if_neg (show ¬(cy + 1 > R.length) by omega)]
  simp only [EditorState.mk.injEq]
  refine ⟨trivial, trivial, ?_, trivial⟩
  rw [List.take_append_of_le_length (by omega), List.take_take,
    show min cy (cy + 1) = cy by omega,
    List.drop_append_eq_append_drop]
  simp [h1]

/-- editorDelChar at column 0 of row cy+1 of a row list of the shape
`A ++ p :: q :: B` with `|A| = cy`: row q is appended onto row p and
removed, and the cursor lands at p's old length on the joined row. -/
theorem editorDelChar_join (syn : Option EditorSyntaxInfo) (cy : Nat)
    (A B : List Erow) (p q : Erow) (d : Nat) (hA : A.length = cy) :
    editorDelChar syn ⟨0, cy + 1, A ++ p :: q :: B, d⟩ =
      ⟨p.chars.length, cy, A ++ editorUpdateRow syn (p.chars ++ q.chars) :: B, d + 2⟩ := by
  have hget1 : (A ++ p :: q :: B).get? (cy + 1) = some q := by
    rw [List.get?_append_right (by omega)]
    simp [hA]
  have hget0 : (A ++ p :: q :: B).get? cy = some p := by
    rw [List.get?_append_right (by omega)]
    simp [hA]
  have hX : (A ++ p :: q :: B).take cy = A := by
    rw [List.take_append_of_le_length (by omega)]
    exact List.take_of_length_le (by omega)
  have hY : (A ++ p :: q :: B).drop (cy + 1) = q :: B := by
    rw [List.drop_append_eq_append_drop]
    simp [hA]
  simp only [editorDelChar]
  rw [if_neg (by simp; omega), if_neg (by simp)]
  simp only [hget1]
  rw [if_neg (by simp)]
  simp only [Nat.add_sub_cancel, hget0, editorRowAppendString, editorDelRow, hX, hY]
  rw [if_neg (by simp; omega)]
  have hT : (A ++ editorUpdateRow syn (p.chars ++ q.chars) :: q :: B).take (cy + 1) =
      A ++ [editorUpdateRow syn (p.chars ++ q.chars)] := by
    rw [List.take_append_eq_append_take]
    simp [hA]
  have hD : (A ++ editorUpdateRow syn (p.chars ++ q.chars) :: q :: B).drop (cy + 1 + 1) =
      B := by
    rw [List.drop_append_eq_append_drop, List.drop_eq_nil_of_le (by omega),
      show cy + 1 + 1 - A.length = 2 by omega]
    simp
  simp only [EditorState.mk.injEq, hT, hD]
  refine ⟨trivial, trivial, ?_, trivial⟩
  simp [List.append_assoc]

/-- The conditional wrap of the scan loop is reduction modulo the row
count, for in-range starting points. -/
theorem findWrap_eq_emod (N : Nat) (hN : 0 < N) (dir : Int)
    (hdir : dir = 1 ∨ dir = -1) (cur : Int) (h1 : -1 ≤ cur) (h2 : cur < (N : Int))
    (h3 : dir = -1 → 0 ≤ cur) :
    findWrap N cur dir = (cur + dir) % (N : Int) := by
  rw [findWrap]
  rcases hdir with rfl | rfl
  · rw [if_neg (by omega)]
    by_cases he : cur + 1 = (N : Int)
    · rw [if_pos he, he]
      simp
    · rw [if_neg he, Int.emod_eq_of_lt (by omega) (by omega)]
  · have h0 : (0 : Int) ≤ cur := h3 rfl
    by_cases he : cur + -1 = -1
    · rw [if_pos he, he]
      rw [show (-1 : Int) = ((N : Int) - 1) + (N : Int) * (-1) by ring,
        Int.add_mul_emod_self_left, Int.emod_eq_of_lt (by omega) (by omega)]
    · rw [if_neg he, if_neg (by omega), Int.emod_eq_of_lt (by omega) (by omega)]

theorem findLoop_eq_spec (rows : List Erow) (query : List Char) (dir : Int)
    (hdir : dir = 1 ∨ dir = -1) (hN : 0 < rows.length) :
    ∀ (n : Nat) (cur : Int), -1 ≤ cur → cur < (rows.length : Int) →
      (dir = -1 → 0 ≤ cur) →
      editorFindLoop rows query n cur dir = findSpecFrom rows query cur dir n := by
  intro n
  induction n with
  | zero =>
    intro cur h1 h2 h3
    simp [editorFindLoop, findSpecFrom]
  | succ n ih =>
    intro cur h1 h2 h3
    have hw := findWrap_eq_emod rows.length hN dir hdir cur h1 h2 h3
    have hmod0 : 0 ≤ (cur + dir) % (rows.length : Int) :=
      Int.emod_nonneg _ (by omega)
    have hmodlt : (cur + dir) % (rows.length : Int) < (rows.length : Int) :=
      Int.emod_lt_of_pos _ (by omega)
    have hlt : ((cur + dir) % (rows.length : Int)).toNat < rows.length := by
      rw [Int.toNat_lt hmod0]
      exact hmodlt
    have hget : (rows.get? ((cur + dir) % (rows.length : Int)).toNat).isSome := by
      rw [List.get?_eq_get hlt]
      rfl
    have hhead : findCandidate rows.length cur dir (0 + 1) =
        ((cur + dir) % (rows.length : Int)).toNat := by
      simp [findCandidate]
    have htail : ∀ i : Nat, findCandidate rows.length cur dir (i + 1 + 1) =
        findCandidate rows.length ((cur + dir) % (rows.length : Int)) dir (i + 1) := by
      intro i
      simp only [findCandidate]
      rw [Int.emod_add_emod]
      congr 2
      push_cast
      ring
    rw [editorFindLoop, hw, findSpecFrom, List.range_succ_eq_map,
      List.map_cons, List.map_map]
    have hcomp : ((fun i => findCandidate rows.length cur dir (i + 1)) ∘ Nat.succ) =
        fun i => findCandidate rows.length cur dir (i + 1 + 1) := by
      funext i
      rfl
    rw [hcomp, List.map_congr_left (fun i _ => htail i), hhead]
    cases hget2 : rows.get? ((cur + dir) % (rows.length : Int)).toNat with
    | none =>
      rw [hget2] at hget
      simp at hget
    | some row =>
    have hget2b : rows[((cur + dir) % (rows.length : Int)).toNat]? = some row := by
      rw [← List.get?_eq_getElem?]
      exact hget2
    cases hm : strstrPos row.render query with
    | some pos =>
      have hp : (fun r => ((rows.get? r).map
          (fun row => (strstrPos row.render query).isSome)).getD false)
          (((cur + dir) % (rows.length : Int)).toNat) = true := by
        simp [hget2b, hm]
      rw [@List.find?_cons_of_pos _
        (fun r => ((rows.get? r).map
          (fun row => (strstrPos row.render query).isSome)).getD false)
        (((cur + dir) % (rows.length : Int)).toNat) _ hp]
      simp only [hget2]
      simp [hm]
    | none =>
      have hp : ¬ (fun r => ((rows.get? r).map
          (fun row => (strstrPos row.render query).isSome)).getD false)
          (((cur + dir) % (rows.length : Int)).toNat) = true := by
        simp [hget2b, hm]
      rw [@List.find?_cons_of_neg _
        (fun r => ((rows.get? r).map
          (fun row => (strstrPos row.render query).isSome)).getD false)
        (((cur + dir) % (rows.length : Int)).toNat) _ hp]
      have hih := ih ((cur + dir) % (rows.length : Int)) (by omega) hmodlt
        (fun _ => hmod0)
      rw [findSpecFrom] at hih
      rw [← hih]
      simp [hm]

/-! ## Claim theorems -/

/-- C1 counterexample: with a dirty buffer and the confirmation counter at
its maximum of 3, three consecutive Ctrl-Q presses do NOT terminate the
process (each press only warns and decrements; the fourth press exits). -/
theorem c1_three_presses_do_not_quit :
    runQuitPresses 1 CLITE_QUIT_TIMES [true, true, true] = false := by decide

/-- C1 (amended): with a dirty document and the quit-confirmation counter
at its maximum of 3, pressing Ctrl-Q four consecutive times terminates the
process, each of the first three presses issuing the unsaved-changes
warning; pressing any key other than Ctrl-Q resets the counter to 3, and
the next Ctrl-Q press issues the warning again. -/
theorem c1_quit_confirmation (dirty : Nat) (h : dirty ≠ 0) :
    runQuitPresses dirty CLITE_QUIT_TIMES [true, true, true, true] = true ∧
    processQuitKey dirty 3 true = .continued 2 true ∧
    processQuitKey dirty 2 true = .continued 1 true ∧
    processQuitKey dirty 1 true = .continued 0 true ∧
    processQuitKey dirty 0 true = .exited ∧
    (∀ qt, processQuitKey dirty qt false = .continued CLITE_QUIT_TIMES false) ∧
    processQuitKey dirty CLITE_QUIT_TIMES true = .continued (CLITE_QUIT_TIMES - 1) true := by
  refine ⟨?_, ?_, ?_, ?_, ?_, ?_, ?_⟩ <;>
    simp [runQuitPresses, processQuitKey, CLITE_QUIT_TIMES, h]

/-- C1 witness: the amended behavior at dirty = 1. -/
theorem c1_quit_confirmation_witness :
    (1 : Nat) ≠ 0 ∧
      runQuitPresses 1 CLITE_QUIT_TIMES [true, true, true, true] = true ∧
      processQuitKey 1 0 true = .exited :=
  ⟨by decide, (c1_quit_confirmation 1 (by decide)).1,
    (c1_quit_confirmation 1 (by decide)).2.2.2.2.1⟩

/-- C2: one incremental search step with a non-empty query scans the rows
advancing by the direction one row at a time with wraparound — i.e. the
k-th candidate is (last_match + direction * k) mod numrows — examining at
most numrows rows, and on the first candidate row whose render contains
the query it yields that row as the new cursor row together with the
match's render column converted back through editorRowRxToCx. -/
theorem c2_find_scan (rows : List Erow) (query : List Char)
    (last_match direction : Int) (hq : query ≠ [])
    (hdir : direction = 1 ∨ direction = -1)
    (hlm1 : -1 ≤ last_match) (hlm2 : last_match < (rows.length : Int)) :
    editorFindScan rows query last_match direction =
      findSpec rows query last_match direction := by
  rw [editorFindScan, findSpec]
  by_cases hN : rows.length = 0
  · have hrows : rows = [] := List.length_eq_zero.1 hN
    subst hrows
    simp [editorFindLoop, findVisited, findSpecFrom]
  · have hN2 : 0 < rows.length := Nat.pos_of_ne_zero hN
    have hdir2 : (if last_match = -1 then 1 else direction) = 1 ∨
        (if last_match = -1 then 1 else direction) = -1 := by
      split
      · exact Or.inl rfl
      · exact hdir
    have h3 : (if last_match = -1 then 1 else direction) = -1 → 0 ≤ last_match := by
      split
      · intro h
        exact absurd h (by decide)
      · intro _
        rename_i hne
        omega
    rw [findLoop_eq_spec rows query _ hdir2 hN2 rows.length last_match hlm1 hlm2 h3]
    rfl


/-- The two-row document ["hello", "world"] used to witness the search
scan equivalence. -/
def c2RowsW : List Erow :=
  [editorUpdateRow none "hello".toList, editorUpdateRow none "world".toList]

/-- C2 witness: a forward scan with no previous match over ["hello",
"world"] for "wor" agrees with the spec and lands on row 1, column 0. -/
theorem c2_find_scan_witness :
    ("wor".toList ≠ [] ∧ ((1 : Int) = 1 ∨ (1 : Int) = -1) ∧ (-1 : Int) ≤ -1 ∧
        (-1 : Int) < (c2RowsW.length : Int)) ∧
      editorFindScan c2RowsW "wor".toList (-1) 1 =
        findSpec c2RowsW "wor".toList (-1) 1 ∧
      editorFindScan c2RowsW "wor".toList (-1) 1 = some (1, 0) :=
  ⟨⟨by decide, by decide, by decide, by decide⟩,
    c2_find_scan c2RowsW "wor".toList (-1) 1 (by decide) (by decide)
      (by decide) (by decide),
    by decide⟩

/-- C3: each tab in the raw text expands to spaces filling the render
column to the next multiple of the tab stop 8 (at least one space, landing
exactly on the least multiple of 8 above the current column); every
non-tab character is copied and advances the column by one; the column
accounting matches the actual render buffer length; a single leading tab
expands to exactly 8 spaces and a tab at render column 3 to exactly 5. -/
theorem c3_tab_expansion :
    (∀ idx rest, renderCharsAux ('\t' :: rest) idx =
        List.replicate (CLITE_TAB_STOP - idx % CLITE_TAB_STOP) ' ' ++
          renderCharsAux rest (idx + (CLITE_TAB_STOP - idx % CLITE_TAB_STOP)) ∧
      0 < CLITE_TAB_STOP - idx % CLITE_TAB_STOP ∧
      (idx + (CLITE_TAB_STOP - idx % CLITE_TAB_STOP)) % CLITE_TAB_STOP = 0 ∧
      (∀ m, idx < m → m % CLITE_TAB_STOP = 0 →
        idx + (CLITE_TAB_STOP - idx % CLITE_TAB_STOP) ≤ m)) ∧
    (∀ c rest idx, c ≠ '\t' →
      renderCharsAux (c :: rest) idx = c :: renderCharsAux rest (idx + 1)) ∧
    (∀ chars, (renderChars chars).length = editorRowCxToRx chars chars.length) ∧
    renderChars ['\t'] = List.replicate 8 ' ' ∧
    renderCharsAux ['\t'] 3 = List.replicate 5 ' ' := by
  refine ⟨?_, ?_, ?_, by decide, by decide⟩
  · intro idx rest
    refine ⟨by simp [renderCharsAux, tabFill], ?_, ?_, ?_⟩
    · have := Nat.mod_lt idx (show 0 < CLITE_TAB_STOP by decide)
      omega
    · simp only [CLITE_TAB_STOP] at *
      omega
    · intro m h1 h2
      simp only [CLITE_TAB_STOP] at *
      omega
  · intro c rest idx h
    simp [renderCharsAux, h]
  · intro chars
    have h := renderCharsAux_length chars 0
    simp only [Nat.zero_add] at h
    rw [renderChars, h, editorRowCxToRx, List.take_length]

/-- C3 witness: expansion at render column 3, where the bound m = 8 is the
next multiple of the tab stop. -/
theorem c3_tab_expansion_witness :
    (3 < 8 ∧ 8 % CLITE_TAB_STOP = 0 ∧ ('a' : Char) ≠ '\t') ∧
      3 + (CLITE_TAB_STOP - 3 % CLITE_TAB_STOP) ≤ 8 ∧
      renderCharsAux ['a'] 7 = 'a' :: renderCharsAux [] 8 :=
  ⟨by decide,
    (c3_tab_expansion.1 3 []).2.2.2 8 (by decide) (by decide),
    c3_tab_expansion.2.1 'a' [] 7 (by decide)⟩

/-- C4: on a row without tabs, converting a file column in [0, length] to
a render column and back is the identity. -/
theorem c4_cx_rx_roundtrip (chars : List Char) (hnt : ∀ c ∈ chars, c ≠ '\t')
    (c : Nat) (hc : c ≤ chars.length) :
    editorRowRxToCx chars (editorRowCxToRx chars c) = c := by
  have h1 : editorRowCxToRx chars c = c := by
    rw [editorRowCxToRx, cxToRxAux_no_tab (chars.take c) 0
      (fun x hx => hnt x (List.mem_of_mem_take hx))]
    simp [List.length_take]
    omega
  rw [h1, editorRowRxToCx]
  have h2 := rxToCxAux_no_tab chars 0 c 0 hnt
  simp only [Nat.zero_add] at h2
  rw [h2]
  omega

/-- C4 witness: chars "ab", column 1. -/
theorem c4_cx_rx_roundtrip_witness :
    ((∀ c ∈ "ab".toList, c ≠ '\t') ∧ 1 ≤ "ab".toList.length) ∧
      editorRowRxToCx "ab".toList (editorRowCxToRx "ab".toList 1) = 1 :=
  ⟨⟨by decide, by decide⟩, c4_cx_rx_roundtrip "ab".toList (by decide) 1 (by decide)⟩

/-- C5: splitting a row at any column k in [0, length] (newline insertion)
and then joining the two halves (backspace at column 0 of the second row)
reproduces the raw content of every row of the document exactly, with the
cursor back on the original row at column k (the join point). -/
theorem c5_split_then_join (syn : Option EditorSyntaxInfo) (st : EditorState)
    (row : Erow) (hrow : st.rows.get? st.cy = some row)
    (hcx : st.cx ≤ row.chars.length) :
    (editorDelChar syn (editorInsertNewline syn st)).rows.map (fun r => r.chars) =
      st.rows.map (fun r => r.chars) ∧
    (editorDelChar syn (editorInsertNewline syn st)).cy = st.cy ∧
    (editorDelChar syn (editorInsertNewline syn st)).cx = st.cx := by
  obtain ⟨cx, cy, R, d⟩ := st
  have hrow2 : R.get? cy = some row := hrow
  have hcx2 : cx ≤ row.chars.length := hcx
  have hcy : cy < R.length := by
    by_contra hle
    rw [List.get?_eq_none.2 (by omega)] at hrow2
    exact Option.noConfusion hrow2
  have hRcy : R.get ⟨cy, hcy⟩ = row := by
    rw [List.get?_eq_get hcy] at hrow2
    exact Option.some.inj hrow2
  have hdropR : R.drop cy = row :: R.drop (cy + 1) := by
    rw [List.drop_eq_getElem_cons hcy, ← List.get_eq_getElem R ⟨cy, hcy⟩, hRcy]
  have hA : (R.take cy).length = cy := by simp; omega
  by_cases hx : cx = 0
  · subst hx
    show (editorDelChar syn (editorInsertNewline syn
      ⟨0, cy, R, d⟩)).rows.map (fun r => r.chars) = _ ∧ _ ∧ _
    rw [editorInsertNewline_zero syn cy R d hcy, hdropR,
      editorDelChar_join syn cy (R.take cy) (R.drop (cy + 1))
        (editorUpdateRow syn []) row (d + 1) hA]
    refine ⟨?_, rfl, rfl⟩
    conv_rhs => rw [← List.take_append_drop cy R, hdropR]
    simp [editorUpdateRow_chars]
  · show (editorDelChar syn (editorInsertNewline syn
      ⟨cx, cy, R, d⟩)).rows.map (fun r => r.chars) = _ ∧ _ ∧ _
    rw [editorInsertNewline_pos syn cx cy R d row hrow2 hcy hx,
      editorDelChar_join syn cy (R.take cy) (R.drop (cy + 1))
        (editorUpdateRow syn (row.chars.take cx))
        (editorUpdateRow syn (row.chars.drop cx)) (d + 1) hA]
    refine ⟨?_, rfl, ?_⟩
    · conv_rhs => rw [← List.take_append_drop cy R, hdropR]
      simp [editorUpdateRow_chars, List.take_append_drop]
    · simp [editorUpdateRow_chars]
      omega

/-- A one-row document "ab" with the cursor at column 1, used to witness
the split/join round trip. -/
def c5StateW : EditorState :=
  { cx := 1, cy := 0, rows := [editorUpdateRow none "ab".toList], dirty := 5 }

/-- C5 witness: splitting "ab" at column 1 then backspacing at the start
of the second row restores the single row "ab" with the cursor at 1. -/
theorem c5_split_then_join_witness :
    (c5StateW.rows.get? c5StateW.cy = some (editorUpdateRow none "ab".toList) ∧
      c5StateW.cx ≤ (editorUpdateRow none "ab".toList).chars.length) ∧
      (editorDelChar none (editorInsertNewline none c5StateW)).rows.map
        (fun r => r.chars) = c5StateW.rows.map (fun r => r.chars) ∧
      (editorDelChar none (editorInsertNewline none c5StateW)).cx = c5StateW.cx :=
  ⟨⟨by decide, by decide⟩,
    (c5_split_then_join none c5StateW (editorUpdateRow none "ab".toList)
      (by decide) (by decide)).1,
    (c5_split_then_join none c5StateW (editorUpdateRow none "ab".toList)
      (by decide) (by decide)).2.2⟩

/-- C6: every operation that changes a row's raw characters (character
insert, character delete, string append, row split via newline, row join
via backspace at column 0, file load) regenerates render and hl together —
every row stays well-formed, i.e. render/hl are exactly the buffers
editorUpdateRow would derive — and well-formedness gives the invariant
len(hl) = len(render). -/
theorem c6_render_hl_invariant (syn : Option EditorSyntaxInfo) :
    (∀ r, rowWF syn r → r.hl.length = r.render.length) ∧
    (∀ chars, rowWF syn (editorUpdateRow syn chars)) ∧
    (∀ row dirty idx c, rowWF syn (editorRowInsertChar syn row dirty idx c).1) ∧
    (∀ row dirty idx, rowWF syn row → rowWF syn (editorRowDelChar syn row dirty idx).1) ∧
    (∀ row dirty s, rowWF syn (editorRowAppendString syn row dirty s).1) ∧
    (∀ st c, stateWF syn st → stateWF syn (editorInsertChar syn st c)) ∧
    (∀ st, stateWF syn st → stateWF syn (editorInsertNewline syn st)) ∧
    (∀ st, stateWF syn st → stateWF syn (editorDelChar syn st)) ∧
    (∀ lines, stateWF syn (editorOpen syn lines)) := by
  have hins : ∀ row dirty idx c, rowWF syn (editorRowInsertChar syn row dirty idx c).1 :=
    fun row dirty idx c => rowWF_editorUpdateRow syn _
  have happ : ∀ row dirty s, rowWF syn (editorRowAppendString syn row dirty s).1 :=
    fun row dirty s => rowWF_editorUpdateRow syn _
  have hdel : ∀ row dirty idx, rowWF syn row →
      rowWF syn (editorRowDelChar syn row dirty idx).1 := by
    intro row dirty idx h
    rw [editorRowDelChar]
    split
    · exact h
    · exact rowWF_editorUpdateRow syn _
  refine ⟨?_, fun chars => rowWF_editorUpdateRow syn chars, hins, hdel, happ, ?_, ?_, ?_, ?_⟩
  · intro r hr
    rw [hr.2, editorUpdateSyntaxHl_length]
  · -- editorInsertChar
    intro st c h
    rw [editorInsertChar]
    have h1 : stateWF syn (if st.cy = st.rows.length
        then editorInsertRow syn st st.rows.length [] else st) := by
      split
      · exact stateWF_editorInsertRow syn st st.rows.length [] h
      · exact h
    set st1 := if st.cy = st.rows.length
      then editorInsertRow syn st st.rows.length [] else st with hst1
    cases hget : st1.rows.get? st1.cy with
    | none => exact h1
    | some row =>
      exact rowWF_surgery syn st1.rows h1 st1.cy (st1.cy + 1) _ (hins row st1.dirty st1.cx c)
  · -- editorInsertNewline
    intro st h
    rw [editorInsertNewline]
    split
    · exact stateWF_editorInsertRow syn st st.cy [] h
    · cases hget : st.rows.get? st.cy with
      | none => exact h
      | some row =>
        have h1 := stateWF_editorInsertRow syn st (st.cy + 1) (row.chars.drop st.cx) h
        exact rowWF_surgery syn _ h1 st.cy (st.cy + 1) _
          (rowWF_editorUpdateRow syn (row.chars.take st.cx))
  · -- editorDelChar
    intro st h
    by_cases h1 : st.cy = st.rows.length
    · rw [editorDelChar, if_pos h1]; exact h
    by_cases h2 : st.cx = 0 ∧ st.cy = 0
    · rw [editorDelChar, if_neg h1, if_pos h2]; exact h
    cases hget : st.rows.get? st.cy with
    | none =>
      rw [editorDelChar, if_neg h1, if_neg h2]
      simp only [hget]
      exact h
    | some row =>
      rw [editorDelChar, if_neg h1, if_neg h2]
      simp only [hget]
      by_cases hcx : st.cx > 0
      · rw [if_pos hcx]
        exact rowWF_surgery syn st.rows h st.cy (st.cy + 1) _
          (hdel row st.dirty ((st.cx : Int) - 1) (h row (List.get?_mem hget)))
      · rw [if_neg hcx]
        cases hget2 : st.rows.get? (st.cy - 1) with
        | none => simp only [hget2]; exact h
        | some prev =>
          simp only [hget2]
          exact stateWF_editorDelRow syn _ st.cy
            (rowWF_surgery syn st.rows h (st.cy - 1) st.cy _ (happ prev st.dirty row.chars))
  · -- editorOpen
    intro lines
    exact stateWF_editorOpen_go syn lines _ (by intro r hr; exact absurd hr (List.not_mem_nil r))

/-- C6 witness: the invariant holds concretely after deleting a character
in a one-row document, and after loading a two-line file. -/
theorem c6_render_hl_invariant_witness :
    stateWF none
        { cx := 1, cy := 0, rows := [editorUpdateRow none "a\tb".toList], dirty := 0 } ∧
      stateWF none (editorDelChar none
        { cx := 1, cy := 0, rows := [editorUpdateRow none "a\tb".toList], dirty := 0 }) ∧
      stateWF none (editorOpen none ["ab".toList, "\tc".toList]) ∧
      rowWF none (editorUpdateRow none "x=1".toList) ∧
      (editorUpdateRow none "x=1".toList).hl.length =
        (editorUpdateRow none "x=1".toList).render.length :=
  ⟨by decide,
    (c6_render_hl_invariant none).2.2.2.2.2.2.2.1
      { cx := 1, cy := 0, rows := [editorUpdateRow none "a\tb".toList], dirty := 0 }
      (by decide),
    (c6_render_hl_invariant none).2.2.2.2.2.2.2.2 ["ab".toList, "\tc".toList],
    (c6_render_hl_invariant none).2.1 "x=1".toList,
    (c6_render_hl_invariant none).1 (editorUpdateRow none "x=1".toList)
      ((c6_render_hl_invariant none).2.1 "x=1".toList)⟩

/-- C7: under the C profile (comment token "//", number highlighting on),
the row rendering as "int x = 1;" classifies exactly the character `1`
(index 8) as Number and everything else Normal, and the row rendering as
"// done" classifies all seven characters as Comment. -/
theorem c7_highlight_scenario :
    editorUpdateSyntaxHl (some cSyntaxInfo) (renderChars "int x = 1;".toList) =
      [EHl.HL_NORMAL, EHl.HL_NORMAL, EHl.HL_NORMAL, EHl.HL_NORMAL, EHl.HL_NORMAL,
       EHl.HL_NORMAL, EHl.HL_NORMAL, EHl.HL_NORMAL, EHl.HL_NUMBER, EHl.HL_NORMAL] ∧
    editorUpdateSyntaxHl (some cSyntaxInfo) (renderChars "// done".toList) =
      List.replicate 7 EHl.HL_COMMENT := by decide

/-- C8: editorRowDelChar with a column outside [0, size) leaves the row
(raw chars, render, hl) and the dirty counter untouched; with a column
inside the range it removes exactly the character at that index (the list
erase at `col`, one character shorter) and increments the dirty counter. -/
theorem c8_row_del_char (syn : Option EditorSyntaxInfo) (row : Erow)
    (dirty : Nat) (idx : Int) :
    ((idx < 0 ∨ (row.chars.length : Int) ≤ idx) →
      editorRowDelChar syn row dirty idx = (row, dirty)) ∧
    (0 ≤ idx → idx < (row.chars.length : Int) →
      (editorRowDelChar syn row dirty idx).1.chars = row.chars.eraseIdx idx.toNat ∧
      (editorRowDelChar syn row dirty idx).1.chars.length = row.chars.length - 1 ∧
      (editorRowDelChar syn row dirty idx).2 = dirty + 1) := by
  constructor
  · intro h
    rw [editorRowDelChar, if_pos (by omega)]
  · intro h0 hlt
    rw [editorRowDelChar, if_neg (by omega)]
    refine ⟨?_, ?_, rfl⟩
    · rw [editorUpdateRow_chars, List.eraseIdx_eq_take_drop_succ]
    · rw [editorUpdateRow_chars]
      simp only [List.length_append, List.length_take, List.length_drop]
      omega

/-- C8 witness: row "abc" with the out-of-range column 5 and the in-range
column 1. -/
theorem c8_row_del_char_witness :
    ((5 : Int) < 0 ∨ ((editorUpdateRow none "abc".toList).chars.length : Int) ≤ 5) ∧
      editorRowDelChar none (editorUpdateRow none "abc".toList) 7 5 =
        (editorUpdateRow none "abc".toList, 7) ∧
      ((0 : Int) ≤ 1 ∧ (1 : Int) < ((editorUpdateRow none "abc".toList).chars.length : Int)) ∧
      (editorRowDelChar none (editorUpdateRow none "abc".toList) 7 1).1.chars =
        (editorUpdateRow none "abc".toList).chars.eraseIdx 1 ∧
      (editorRowDelChar none (editorUpdateRow none "abc".toList) 7 1).2 = 7 + 1 :=
  ⟨by decide,
    (c8_row_del_char none (editorUpdateRow none "abc".toList) 7 5).1 (by decide),
    ⟨by decide, by decide⟩,
    ((c8_row_del_char none (editorUpdateRow none "abc".toList) 7 1).2
      (by decide) (by decide)).1,
    ((c8_row_del_char none (editorUpdateRow none "abc".toList) 7 1).2
      (by decide) (by decide)).2.2⟩

/-- The totlen loop of editorRowsToString, with an arbitrary accumulator. -/
theorem editorRowsToStringLen_foldl (rows : List Erow) :
    ∀ acc, rows.foldl (fun a r => a + (r.chars.length + 1)) acc =
      acc + (rows.map (fun r => r.chars.length)).sum + rows.length := by
  induction rows with
  | nil => intro acc; simp
  | cons r rest ih =>
    intro acc
    simp only [List.foldl_cons, List.map_cons, List.sum_cons, List.length_cons]
    rw [ih (acc + (r.chars.length + 1))]
    omega

/-- The serialized buffer is nonempty as soon as there is a row. -/
theorem editorRowsToString_length (rows : List Erow) :
    (editorRowsToString rows).length =
      (rows.map (fun r => r.chars.length)).sum + rows.length := by
  induction rows with
  | nil => simp [editorRowsToString]
  | cons r rest ih =>
    simp only [editorRowsToString, List.foldr_cons, List.length_append,
      List.length_cons, List.map_cons, List.sum_cons] at *
    omega

/-- C9: serialization emits every row's raw characters followed by exactly
one newline, including after the last row: the reported byte count (the
totlen loop) equals the buffer length and equals the sum of the row
lengths plus the row count, and the serialization of any non-empty
document ends with a newline byte. -/
theorem c9_rows_to_string (rows : List Erow) :
    editorRowsToStringLen rows = (editorRowsToString rows).length ∧
    editorRowsToStringLen rows = (rows.map (fun r => r.chars.length)).sum + rows.length ∧
    (rows ≠ [] → (editorRowsToString rows).getLast? = some '\n') := by
  refine ⟨?_, ?_, ?_⟩
  · rw [editorRowsToStringLen, editorRowsToStringLen_foldl rows 0,
      editorRowsToString_length]
    omega
  · rw [editorRowsToStringLen, editorRowsToStringLen_foldl rows 0]
    omega
  · intro hne
    induction rows with
    | nil => exact absurd rfl hne
    | cons r rest ih =>
      by_cases hr : rest = []
      · subst hr
        show (r.chars ++ '\n' :: []).getLast? = some '\n'
        rw [List.getLast?_concat]
      · show (r.chars ++ '\n' :: editorRowsToString rest).getLast? = some '\n'
        have h1 : editorRowsToString rest ≠ [] := by
          intro h
          have h2 := editorRowsToString_length rest
          rw [h] at h2
          simp only [List.length_nil] at h2
          exact hr (List.eq_nil_of_length_eq_zero (by omega))
        rw [List.getLast?_append_cons,
          show ('\n' :: editorRowsToString rest) = ['\n'] ++ editorRowsToString rest from rfl,
          List.getLast?_append_of_ne_nil _ h1]
        exact ih hr

/-- C9 witness: the two-row document ["ab", ""] serializes to 5 bytes
ending in a newline. -/
theorem c9_rows_to_string_witness :
    ([editorUpdateRow none "ab".toList, editorUpdateRow none ([] : List Char)] ≠ []) ∧
      editorRowsToStringLen [editorUpdateRow none "ab".toList, editorUpdateRow none ([] : List Char)] =
        (editorRowsToString
          [editorUpdateRow none "ab".toList, editorUpdateRow none ([] : List Char)]).length ∧
      (editorRowsToString
        [editorUpdateRow none "ab".toList, editorUpdateRow none ([] : List Char)]).getLast? =
        some '\n' :=
  ⟨by decide,
    (c9_rows_to_string [editorUpdateRow none "ab".toList, editorUpdateRow none ([] : List Char)]).1,
    (c9_rows_to_string [editorUpdateRow none "ab".toList,
      editorUpdateRow none ([] : List Char)]).2.2 (by decide)⟩

/-- C10: inserting a character with the cursor on the legal past-last-row
position appends one new row holding exactly the typed character: the row
count grows by one, the raw contents of all previous rows are unchanged,
and the cursor column advances by one.  (An empty document is the special
case rows = [].) -/
theorem c10_insert_past_last_row (syn : Option EditorSyntaxInfo)
    (st : EditorState) (c : Char) (h : st.cy = st.rows.length) :
    (editorInsertChar syn st c).rows.length = st.rows.length + 1 ∧
    (editorInsertChar syn st c).rows.map (fun r => r.chars) =
      st.rows.map (fun r => r.chars) ++ [[c]] ∧
    (editorInsertChar syn st c).cx = st.cx + 1 := by
  rw [editorInsertChar]
  simp only [h, if_true, ite_true, editorInsertRow, List.take_length, List.drop_length]
  rw [if_neg (by omega)]
  simp only [List.get?_concat_length]
  simp only [editorRowInsertChar, editorUpdateRow_chars, List.take_nil, List.drop_nil]
  constructor
  · simp
  constructor
  · rw [List.take_left, show st.rows.length + 1 = (st.rows ++
      [editorUpdateRow syn []]).length by simp, List.drop_length]
    simp [editorUpdateRow_chars]
  · trivial

/-- C10 witness: typing 'q' into the empty document creates row 0
containing exactly "q" and moves the cursor column from 0 to 1. -/
theorem c10_insert_past_last_row_witness :
    (({ cx := 0, cy := 0, rows := [], dirty := 0 } : EditorState).cy =
      ({ cx := 0, cy := 0, rows := [], dirty := 0 } : EditorState).rows.length) ∧
      (editorInsertChar none { cx := 0, cy := 0, rows := [], dirty := 0 } 'q').rows.map
        (fun r => r.chars) = [] ++ [['q']] ∧
      (editorInsertChar none { cx := 0, cy := 0, rows := [], dirty := 0 } 'q').cx = 0 + 1 :=
  ⟨by decide,
    (c10_insert_past_last_row none { cx := 0, cy := 0, rows := [], dirty := 0 } 'q' rfl).2.1,
    (c10_insert_past_last_row none { cx := 0, cy := 0, rows := [], dirty := 0 } 'q' rfl).2.2⟩

end Clite
